import Mathlib

/-!
# Verification of the LZ78 compressor (`src/scl/compressors/lz78.py`)

Shallow embedding of the LZ78 encoder/decoder from
`src/scl/compressors/lz78.py`, together with a spec-modelled version of the
external integer entropy-coding collaborator (the `LogScaleBinnedInteger`
encoder/decoder imported from the `lz77` module, which is not part of the
sources under verification).

Modelling conventions:
* Python strings are `List Char` (`Phrase`);
* Python dicts are association lists whose lookup returns the first matching
  key; updates cons at the front, which reproduces Python's latest-binding
  lookup semantics;
* fallible Python operations (`KeyError`, `IndexError`, `ord`/`chr` errors,
  a failing `assert`) are modelled with `Option`, `none` meaning that the
  Python code raises.
-/

/-- A phrase: an ordered sequence of symbols, i.e. a Python string. -/
abbrev Phrase := List Char

/-- Encoder-side dictionary: a Python dict mapping phrase → index. -/
abbrev EncDict := List (Phrase × Nat)

/-- Decoder-side dictionary: a Python dict mapping index → phrase. -/
abbrev DecDict := List (Nat × Phrase)

/-- Python dict lookup: the first matching key wins.  Entries are consed at
the front on insertion, so this models Python's latest-binding semantics for
both fresh inserts and overwrites. -/
def assocLookup {α β : Type} [DecidableEq α] : List (α × β) → α → Option β
  | [], _ => none
  | (k, v) :: rest, a => if k = a then some v else assocLookup rest a

/-- State of `LZ78Encoder.lz78_parse_and_generate_dict`'s main loop
(lz78.py, lines 85-103): the dictionary, the Python local `prefix`
(called `pfx` here because `prefix` is a Lean keyword), the `dict_index`
counter and the output list of `(index, literal)` tuples. -/
structure EncSt where
  dict : EncDict
  pfx : Phrase
  dict_index : Nat
  output : List (Nat × Phrase)
deriving DecidableEq

/-- One iteration of the parser loop (lz78.py, lines 92-103): extend the
current prefix when `prefix + symbol` is a known phrase, otherwise emit the
tuple `(dictionary.get(prefix, 0), symbol)`, register `prefix + symbol` at
`dict_index`, bump `dict_index` and clear the prefix. -/
def encStep (st : EncSt) (c : Char) : EncSt :=
  match assocLookup st.dict (st.pfx ++ [c]) with
  | some _ => { st with pfx := st.pfx ++ [c] }
  | none =>
      { dict := (st.pfx ++ [c], st.dict_index) :: st.dict
        pfx := []
        dict_index := st.dict_index + 1
        output := st.output ++ [((assocLookup st.dict st.pfx).getD 0, [c])] }

/-- The parser loop run over the whole input, starting from the encoder's
dictionary (`self.dictionary`, seeded by `initial_dict` when given) with
`prefix = ""` and `dict_index = 1` (lz78.py, lines 86-103). -/
def encRun (dict0 : EncDict) (input : List Char) : EncSt :=
  input.foldl encStep { dict := dict0, pfx := [], dict_index := 1, output := [] }

/-- Embedding of `LZ78Encoder.lz78_parse_and_generate_dict` (lz78.py, lines 85-109): run
the loop, then flush a non-empty trailing prefix as the tuple
`(dictionary[prefix], "")`.  The direct indexing `dictionary[prefix]` would
raise `KeyError` on a missing key, hence the `Option`. -/
def lz78_parse_and_generate_dict (dict0 : EncDict) (input : List Char) :
    Option (List (Nat × Phrase) × EncDict) :=
  let st := encRun dict0 input
  if st.pfx = [] then some (st.output, st.dict)
  else
    match assocLookup st.dict st.pfx with
    | some i => some (st.output ++ [(i, [])], st.dict)
    | none => none

/-- State of `LZ78Decoder.lz78_decode_from_tuples`'s loop (lz78.py,
lines 177-188): the inverse dictionary, the `dict_index` counter and the
list of decoded phrases. -/
structure DecSt where
  dict : DecDict
  dict_index : Nat
  output : List Phrase
deriving DecidableEq

/-- One iteration of the reconstructor loop (lz78.py, lines 181-188):
`new_string = symbol` when `index == 0`, else `dictionary[index] + symbol`
(a `KeyError`, i.e. `none`, when the index is absent); the new string is
always registered at `dict_index`, the counter always bumped, and the new
string appended to the output — there is no special case for the
empty-literal sentinel tuple. -/
def decStep (st : DecSt) (p : Nat × Phrase) : Option DecSt :=
  (if p.1 = 0 then some p.2 else (assocLookup st.dict p.1).map fun s => s ++ p.2).map
    fun new_string =>
      { dict := (st.dict_index, new_string) :: st.dict
        dict_index := st.dict_index + 1
        output := st.output ++ [new_string] }

/-- The reconstructor loop run from an arbitrary starting state. -/
def decSteps (st : DecSt) (tuples : List (Nat × Phrase)) : Option DecSt :=
  tuples.foldlM decStep st

/-- The reconstructor loop started on `self.dictionary` with
`dict_index = 1` (lz78.py, lines 177-188). -/
def decRun (dict0 : DecDict) (tuples : List (Nat × Phrase)) : Option DecSt :=
  decSteps { dict := dict0, dict_index := 1, output := [] } tuples

/-- Embedding of `LZ78Decoder.lz78_decode_from_tuples` (lz78.py, lines 171-191): replay
the tuples and join the decoded phrases (`''.join(output)` in Python); the
two Python return values (string and char list) have identical content, so a
single `List Char` is returned. -/
def lz78_decode_from_tuples (dict0 : DecDict) (tuples : List (Nat × Phrase)) :
    Option (List Char) :=
  (decRun dict0 tuples).map fun st => st.output.flatten

/-! ## A minimal Python heap, for the aliasing behaviour of the seed dict

`LZ78Encoder.__init__` executes `self.dictionary = initial_dict`, binding
`self.dictionary` to the very dict object the caller passed (a reference
copy, not a copy of the dict), and `lz78_parse_and_generate_dict` starts
with `dictionary = self.dictionary` and writes through that reference.  To
talk about what happens to the *caller's* object we model a tiny heap of
dict objects addressed by references. -/

/-- A heap of Python dict objects; a reference is an index into the list. -/
abbrev Heap := List EncDict

/-- Embedding of `LZ78Encoder.__init__` (lz78.py, lines 79-83): `self.dictionary =
initial_dict` stores the caller's reference unchanged — no copy is made. -/
def encoder_init_dict_ref (r : Nat) : Nat := r

/-- Heap effect of `lz78_parse_and_generate_dict` on an encoder constructed
over heap reference `r`: the loop's `dictionary[new_string] = dict_index`
assignments write through `self.dictionary`, i.e. into the heap cell the
caller's `initial_dict` lives in. -/
def run_parse_on_heap (heap : Heap) (r : Nat) (input : List Char) : Heap :=
  heap.set (encoder_init_dict_ref r)
    (encRun (heap.getD (encoder_init_dict_ref r) []) input).dict

/-! ## Spec-modelled entropy-coding collaborator

`LogScaleBinnedIntegerEncoder` / `LogScaleBinnedIntegerDecoder` are imported
from the `lz77` module, which is not among the sources under verification.
Modelled from the spec: §6's collaborator contract is
`encode(sequence_of_non_negative_integers) -> bits` and
`decode(bits) -> (sequence_of_integers, bits_consumed)` with `bits_consumed`
exactly matching what the encode call produced.  The concrete bit layout is
irrelevant to the claims, so a simple self-delimiting unary code is used. -/

/-- Modelled from the spec: a self-delimiting code for one non-negative
integer (`n` ones followed by a zero). -/
def natCode (n : Nat) : List Bool := List.replicate n true ++ [false]

/-- Modelled from the spec: `LogScaleBinnedIntegerEncoder.encode_block` —
encode a sequence of non-negative integers into a self-delimiting
bitstream (here: the length, then each value). -/
def specIntEncode (xs : List Nat) : List Bool :=
  natCode xs.length ++ (xs.map natCode).flatten

/-- Decode one `natCode`-coded integer, returning it and the rest. -/
def natDecode : List Bool → Option (Nat × List Bool)
  | [] => none
  | false :: rest => some (0, rest)
  | true :: rest => (natDecode rest).map fun p => (p.1 + 1, p.2)

/-- Decode `k` consecutive `natCode`-coded integers. -/
def natsDecode : Nat → List Bool → Option (List Nat × List Bool)
  | 0, bits => some ([], bits)
  | k + 1, bits =>
      (natDecode bits).bind fun p =>
        (natsDecode k p.2).map fun q => (p.1 :: q.1, q.2)

/-- Modelled from the spec: `LogScaleBinnedIntegerDecoder.decode_block` —
decode a sequence of integers from the front of a bitstream and report the
exact number of bits consumed. -/
def specIntDecode (bits : List Bool) : Option (List Nat × Nat) :=
  (natDecode bits).bind fun p =>
    (natsDecode p.1 p.2).map fun q => (q.1, bits.length - q.2.length)

/-! ## The Tuple Codec layer (`encode_*` / `decode_*` of lz78.py) -/

/-- Embedding of `LZ78Encoder.encode_indexes` (lz78.py, lines 111-115): entropy-code the
index stream. -/
def encode_indexes (indexes : List Nat) : List Bool := specIntEncode indexes

/-- Python `ord(l)` on a literal string: defined exactly when the string has
exactly one character (otherwise `ord` raises `TypeError`). -/
def ordLit : Phrase → Option Nat
  | [c] => some c.toNat
  | _ => none

/-- The list comprehension `[ord(l) for l in literals]`: fails as soon as one
element makes `ord` raise. -/
def ordLits : List Phrase → Option (List Nat)
  | [] => some []
  | l :: rest => (ordLit l).bind fun n => (ordLits rest).map fun ns => n :: ns

/-- Embedding of `LZ78Encoder.encode_literals` (lz78.py, lines 117-136): `literals[-1]`
raises `IndexError` on an empty list (`none`); a trailing empty-string
sentinel literal is dropped; the rest are converted with `ord` and
entropy-coded. -/
def encode_literals (literals : List Phrase) : Option (List Bool) :=
  match literals.getLast? with
  | none => none
  | some last =>
      let lits := if last = [] then literals.dropLast else literals
      (ordLits lits).map specIntEncode

/-- Embedding of `LZ78Encoder.encode_tuples` (lz78.py, lines 138-141): the encoded index
stream immediately followed by the encoded literal stream. -/
def encode_tuples (tuples : List (Nat × Phrase)) : Option (List Bool) :=
  (encode_literals (tuples.map Prod.snd)).map
    fun encoded_literals => encode_indexes (tuples.map Prod.fst) ++ encoded_literals

/-- Embedding of `LZ78Encoder.encode_block` (lz78.py, lines 143-148): LZ78-parse the
block, then encode the tuples. -/
def encode_block (dict0 : EncDict) (input : List Char) : Option (List Bool) :=
  (lz78_parse_and_generate_dict dict0 input).bind fun r => encode_tuples r.1

/-- Embedding of `LZ78Decoder.decode_indexes` (lz78.py, lines 193-196). -/
def decode_indexes (bits : List Bool) : Option (List Nat × Nat) := specIntDecode bits

/-- Python `chr(l)`: a single-character string for an in-range code point,
`ValueError` (`none`) otherwise.  (Python additionally accepts lone
surrogates, which a Unicode scalar type cannot represent; no claim depends
on those code points.) -/
def chrLit (l : Nat) : Option Phrase :=
  if l < 55296 ∨ (57343 < l ∧ l < 1114112) then some [Char.ofNat l] else none

/-- The list comprehension `[chr(l) for l in literals]`. -/
def chrLits : List Nat → Option (List Phrase)
  | [] => some []
  | l :: rest => (chrLit l).bind fun p => (chrLits rest).map fun ps => p :: ps

/-- Embedding of `LZ78Decoder.decode_literals` (lz78.py, lines 198-214): entropy-decode
the literal stream and map each integer back to a one-character string. -/
def decode_literals (bits : List Bool) : Option (List Phrase × Nat) :=
  (specIntDecode bits).bind fun p =>
    (chrLits p.1).map fun ls => (ls, p.2)

/-- The stream re-alignment step of `LZ78Decoder.decode_block` (lz78.py,
lines 222-227): if the index stream is exactly one longer, append a
synthetic empty-string sentinel literal before zipping; equal lengths zip
directly; any other relationship fails the `assert` (`none`). -/
def align_tuples (indexes : List Nat) (literals : List Phrase) :
    Option (List (Nat × Phrase)) :=
  if literals.length + 1 = indexes.length then some (indexes.zip (literals ++ [[]]))
  else if literals.length = indexes.length then some (indexes.zip literals)
  else none

/-- Embedding of `LZ78Decoder.decode_block` (lz78.py, lines 216-230): decode the index
stream from the front, the literal stream from the remaining bits, re-align,
zip into tuples, LZ78-decode, and report the total bits consumed. -/
def decode_block (dict0 : DecDict) (bits : List Bool) : Option (List Char × Nat) :=
  (decode_indexes bits).bind fun pi =>
    (decode_literals (bits.drop pi.2)).bind fun pl =>
      (align_tuples pi.1 pl.1).bind fun tuples =>
        (lz78_decode_from_tuples dict0 tuples).map fun out => (out, pi.2 + pl.2)

/-- Tuples of the shape the parser's main loop produces: a reference paired
with a single-character literal. -/
def bodyTuples (body : List (Nat × Char)) : List (Nat × Phrase) :=
  body.map fun p => (p.1, [p.2])

/-- The coupling invariant between the encoder loop state (having consumed
`consumed`) and the decoder's replay of the tuples emitted so far:
the replay succeeds, its `dict_index` tracks the encoder's, its decoded
output plus the encoder's pending prefix is exactly the consumed input, and
the decoder dictionary is the exact inverse of the encoder dictionary, all
indexes being at least 1 and below `dict_index`. -/
def EncDecInv (consumed : List Char) (st : EncSt) : Prop :=
  1 ≤ st.dict_index ∧
  (∀ r l, (r, l) ∈ st.output → l ≠ []) ∧
  (st.pfx ≠ [] → (assocLookup st.dict st.pfx).isSome) ∧
  ∃ dst : DecSt,
    decRun [] st.output = some dst ∧
    dst.dict_index = st.dict_index ∧
    dst.output.flatten ++ st.pfx = consumed ∧
    ∀ s i, assocLookup st.dict s = some i →
      s ≠ [] ∧ 1 ≤ i ∧ i < st.dict_index ∧ assocLookup dst.dict i = some s

/-! ## Basic lemmas about the decoder replay -/

theorem decSteps_nil (st : DecSt) : decSteps st [] = some st := rfl

theorem decSteps_cons (x : Nat × Phrase) (l : List (Nat × Phrase)) (st : DecSt) :
    decSteps st (x :: l) = (decStep st x).bind fun s => decSteps s l := by
  cases h : decStep st x <;> simp [decSteps, List.foldlM_cons, h]

theorem decSteps_append (l₁ l₂ : List (Nat × Phrase)) (st : DecSt) :
    decSteps st (l₁ ++ l₂) = (decSteps st l₁).bind fun s => decSteps s l₂ := by
  induction l₁ generalizing st with
  | nil => simp [decSteps_nil]
  | cons x l ih =>
      rw [List.cons_append, decSteps_cons, decSteps_cons]
      cases decStep st x with
      | none => simp
      | some s => simp [ih]

theorem decSteps_single (x : Nat × Phrase) (st : DecSt) :
    decSteps st [x] = decStep st x := by
  rw [decSteps_cons]
  cases decStep st x <;> simp [decSteps_nil]

theorem decRun_append (dict0 : DecDict) (l₁ l₂ : List (Nat × Phrase)) :
    decRun dict0 (l₁ ++ l₂) = (decRun dict0 l₁).bind fun s => decSteps s l₂ := by
  simp [decRun, decSteps_append]

/-! ## The encoder/decoder coupling invariant -/

theorem encDecInv_init : EncDecInv [] { dict := [], pfx := [], dict_index := 1, output := [] } := by
  refine ⟨le_refl 1, ?_, ?_, ⟨[], 1, []⟩, rfl, rfl, rfl, ?_⟩
  · intro r l hmem; simp at hmem
  · intro hne; simp at hne
  · intro s i hsi; simp [assocLookup] at hsi

theorem encDecInv_step (consumed : List Char) (st : EncSt) (c : Char)
    (h : EncDecInv consumed st) : EncDecInv (consumed ++ [c]) (encStep st c) := by
  obtain ⟨h1, hout, hpfx, dst, hrun, hidx, hjoin, hdict⟩ := h
  cases hl : assocLookup st.dict (st.pfx ++ [c]) with
  | some j =>
      have hstepE : encStep st c = { st with pfx := st.pfx ++ [c] } := by
        simp [encStep, hl]
      rw [hstepE]
      refine ⟨h1, hout, ?_, dst, hrun, hidx, ?_, hdict⟩
      · intro _; simp [hl]
      · simp [← hjoin, List.append_assoc]
  | none =>
      -- the emitted reference, and the fact that the decoder reconstructs the phrase
      have href : ∃ r : Nat, (assocLookup st.dict st.pfx).getD 0 = r ∧
          (if r = 0 then some ([c] : Phrase)
           else (assocLookup dst.dict r).map fun s => s ++ [c]) = some (st.pfx ++ [c]) := by
        by_cases hp : st.pfx = []
        · refine ⟨0, ?_, ?_⟩
          · cases hq : assocLookup st.dict st.pfx with
            | none => rfl
            | some i => exact absurd (hp ▸ rfl) (hdict _ i hq).1
          · simp [hp]
        · obtain ⟨i, hi⟩ := Option.isSome_iff_exists.mp (hpfx hp)
          obtain ⟨-, h1i, -, hinv⟩ := hdict _ i hi
          refine ⟨i, by simp [hi], ?_⟩
          rw [if_neg (by omega)]
          simp [hinv]
      obtain ⟨r, hr, hdec⟩ := href
      have hstep : decStep dst (r, [c]) =
          some { dict := (dst.dict_index, st.pfx ++ [c]) :: dst.dict,
                 dict_index := dst.dict_index + 1,
                 output := dst.output ++ [st.pfx ++ [c]] } := by
        simp only [decStep]
        rw [hdec]
        rfl
      have hstepE : encStep st c =
          { dict := (st.pfx ++ [c], st.dict_index) :: st.dict, pfx := [],
            dict_index := st.dict_index + 1,
            output := st.output ++ [(r, [c])] } := by
        simp [encStep, hl, hr]
      rw [hstepE]
      unfold EncDecInv
      dsimp only
      refine ⟨by omega, ?_, ?_, ?_⟩
      · intro r' l hmem
        simp only [List.mem_append, List.mem_singleton] at hmem
        rcases hmem with hmem | hmem
        · exact hout r' l hmem
        · simp only [Prod.mk.injEq] at hmem
          rw [hmem.2]
          simp
      · intro hne; exact absurd rfl hne
      · refine ⟨{ dict := (dst.dict_index, st.pfx ++ [c]) :: dst.dict,
                  dict_index := dst.dict_index + 1,
                  output := dst.output ++ [st.pfx ++ [c]] }, ?_, ?_, ?_, ?_⟩
        · rw [decRun_append, hrun]
          simp [decSteps_single, hstep]
        · simp [hidx]
        · simp [← hjoin, List.append_assoc]
        · intro s i hsi
          simp only [assocLookup] at hsi
          by_cases hks : st.pfx ++ [c] = s
          · rw [if_pos hks] at hsi
            obtain rfl : st.dict_index = i := by simpa using hsi
            refine ⟨by rw [← hks]; simp, h1, by omega, ?_⟩
            simp [assocLookup, hidx, ← hks]
          · rw [if_neg hks] at hsi
            obtain ⟨hs, h1i, hlt, hinv⟩ := hdict s i hsi
            refine ⟨hs, h1i, by omega, ?_⟩
            simp only [assocLookup]
            rw [if_neg (by omega), hinv]

theorem encDecInv_foldl (l : List Char) : ∀ (consumed : List Char) (st : EncSt),
    EncDecInv consumed st → EncDecInv (consumed ++ l) (l.foldl encStep st) := by
  induction l with
  | nil => intro consumed st h; simpa using h
  | cons c l ih =>
      intro consumed st h
      have := ih (consumed ++ [c]) (encStep st c) (encDecInv_step consumed st c h)
      simpa [List.append_assoc] using this

theorem encDecInv_main (input : List Char) : EncDecInv input (encRun [] input) := by
  have := encDecInv_foldl input [] _ encDecInv_init
  simpa [encRun] using this

/-- C1: for every finite symbol sequence (including the empty one), parsing
with an empty seed dictionary via `lz78_parse_and_generate_dict` succeeds,
and replaying the produced tuples through `lz78_decode_from_tuples` with an
empty seed inverse dictionary reproduces exactly the original sequence. -/
theorem c1_round_trip (input : List Char) :
    ∃ pairs finalDict,
      lz78_parse_and_generate_dict [] input = some (pairs, finalDict) ∧
      lz78_decode_from_tuples [] pairs = some input := by
  obtain ⟨h1, hout, hpfx, dst, hrun, hidx, hjoin, hdict⟩ := encDecInv_main input
  by_cases hp : (encRun [] input).pfx = []
  · refine ⟨(encRun [] input).output, (encRun [] input).dict, ?_, ?_⟩
    · simp [lz78_parse_and_generate_dict, hp]
    · rw [hp, List.append_nil] at hjoin
      simp [lz78_decode_from_tuples, hrun, hjoin]
  · obtain ⟨i, hi⟩ := Option.isSome_iff_exists.mp (hpfx hp)
    obtain ⟨-, h1i, -, hinv⟩ := hdict _ i hi
    refine ⟨(encRun [] input).output ++ [(i, [])], (encRun [] input).dict, ?_, ?_⟩
    · simp [lz78_parse_and_generate_dict, hp, hi]
    · have hstep : decStep dst (i, []) =
          some { dict := (dst.dict_index, (encRun [] input).pfx) :: dst.dict,
                 dict_index := dst.dict_index + 1,
                 output := dst.output ++ [(encRun [] input).pfx] } := by
        simp only [decStep]
        rw [if_neg (by omega), hinv]
        simp
      rw [lz78_decode_from_tuples, decRun_append, hrun]
      simp [decSteps_single, hstep, hjoin]

/-- C5: when the input is exhausted with a non-empty buffered prefix, the
parser emits exactly one final tuple whose reference is the dictionary
index of the buffered phrase and whose literal is the empty-string
sentinel; in every other termination the output is exactly the loop's
output, and no loop tuple ever carries the sentinel literal. -/
theorem c5_final_flush (input : List Char) :
    (∀ r l, (r, l) ∈ (encRun [] input).output → l ≠ []) ∧
    ((encRun [] input).pfx = [] →
      lz78_parse_and_generate_dict [] input =
        some ((encRun [] input).output, (encRun [] input).dict)) ∧
    ((encRun [] input).pfx ≠ [] →
      ∃ i, assocLookup (encRun [] input).dict (encRun [] input).pfx = some i ∧
        lz78_parse_and_generate_dict [] input =
          some ((encRun [] input).output ++ [(i, [])], (encRun [] input).dict)) := by
  obtain ⟨h1, hout, hpfx, dst, hrun, hidx, hjoin, hdict⟩ := encDecInv_main input
  refine ⟨hout, ?_, ?_⟩
  · intro hp
    simp [lz78_parse_and_generate_dict, hp]
  · intro hp
    obtain ⟨i, hi⟩ := Option.isSome_iff_exists.mp (hpfx hp)
    exact ⟨i, hi, by simp [lz78_parse_and_generate_dict, hp, hi]⟩

/-- Witness for C5 at the concrete input "aa", whose final phrase "a" is
already in the dictionary and is flushed as the sentinel tuple `(1, "")`. -/
theorem c5_witness :
    (encRun [] ['a', 'a']).pfx ≠ [] ∧
    ∃ i, assocLookup (encRun [] ['a', 'a']).dict (encRun [] ['a', 'a']).pfx = some i ∧
      lz78_parse_and_generate_dict [] ['a', 'a'] =
        some ((encRun [] ['a', 'a']).output ++ [(i, [])], (encRun [] ['a', 'a']).dict) :=
  ⟨by decide, (c5_final_flush ['a', 'a']).2.2 (by decide)⟩

/-- C6: a non-sentinel tuple whose reference is neither 0 nor an index
present in the decoder's dictionary at the time it is processed makes the
whole decode fail (`KeyError` on `dictionary[index]`): no output at all is
produced, regardless of what follows the offending tuple. -/
theorem c6_dangling_reference (dict0 : DecDict) (pre post : List (Nat × Phrase))
    (i : Nat) (s : Phrase) (st : DecSt) (h : decRun dict0 pre = some st)
    (hi : i ≠ 0) (hs : s ≠ []) (hm : assocLookup st.dict i = none) :
    lz78_decode_from_tuples dict0 (pre ++ (i, s) :: post) = none := by
  have hstep : decStep st (i, s) = none := by
    simp [decStep, hi, hm]
  have hrun : decRun dict0 (pre ++ (i, s) :: post) = none := by
    rw [decRun_append, h]
    simp [decSteps_cons, hstep]
  simp [lz78_decode_from_tuples, hrun]

/-- Witness for C6: decoding the single tuple `(1, "a")` against an empty
seed dictionary aborts. -/
theorem c6_witness :
    decRun [] ([] : List (Nat × Phrase)) =
      some { dict := [], dict_index := 1, output := [] } ∧
    lz78_decode_from_tuples [] [(1, ['a'])] = none :=
  ⟨rfl, c6_dangling_reference [] [] [] 1 ['a']
    { dict := [], dict_index := 1, output := [] } rfl (by decide) (by decide) rfl⟩

/-- C3 counterexample: replaying `[(0, "a"), (1, "")]` (last tuple carries
the sentinel) the reconstructor does register a new dictionary entry at
index 2 for the sentinel tuple and does increment `dict_index` from 2 to 3,
contradicting the claim that the sentinel tuple registers nothing and
leaves `next_index` unchanged. -/
theorem c3_counterexample :
    decRun [] [(0, ['a']), (1, [])] =
      some { dict := [(2, ['a']), (1, ['a'])], dict_index := 3,
             output := [['a'], ['a']] } ∧
    (decRun [] [(0, ['a'])]).map DecSt.dict_index = some 2 ∧
    ¬ ((decRun [] [(0, ['a']), (1, [])]).map DecSt.dict_index = some 2) ∧
    ¬ ((decRun [] [(0, ['a']), (1, [])]).map DecSt.dict =
        some [(1, ['a'])]) := by
  decide

/-- C3 amended: on a sentinel tuple `(i, "")` with a valid non-zero
reference, the reconstructor appends exactly the phrase stored at `i` to
the output (so the decoded text is as the claim says), but — like for every
tuple — it also registers that phrase as a fresh dictionary entry at
`dict_index` and increments `dict_index`. -/
theorem c3_amended (dict0 : DecDict) (pairs : List (Nat × Phrase)) (st : DecSt)
    (i : Nat) (p : Phrase) (h : decRun dict0 pairs = some st) (hi : i ≠ 0)
    (hp : assocLookup st.dict i = some p) :
    decRun dict0 (pairs ++ [(i, [])]) =
      some { dict := (st.dict_index, p) :: st.dict,
             dict_index := st.dict_index + 1,
             output := st.output ++ [p] } ∧
    lz78_decode_from_tuples dict0 (pairs ++ [(i, [])]) =
      some (st.output.flatten ++ p) := by
  have hstep : decStep st (i, []) =
      some { dict := (st.dict_index, p) :: st.dict,
             dict_index := st.dict_index + 1,
             output := st.output ++ [p] } := by
    simp only [decStep]
    rw [if_neg hi, hp]
    simp
  have hrun : decRun dict0 (pairs ++ [(i, [])]) =
      some { dict := (st.dict_index, p) :: st.dict,
             dict_index := st.dict_index + 1,
             output := st.output ++ [p] } := by
    rw [decRun_append, h]
    simp [decSteps_single, hstep]
  refine ⟨hrun, ?_⟩
  simp [lz78_decode_from_tuples, hrun]

/-- Witness for the amended C3 at the tuples `[(0, "a"), (1, "")]`. -/
theorem c3_amended_witness :
    decRun [] [(0, ['a']), (1, [])] =
      some { dict := (2, ['a']) :: [(1, ['a'])], dict_index := 2 + 1,
             output := [['a']] ++ [['a']] } ∧
    lz78_decode_from_tuples [] [(0, ['a']), (1, [])] =
      some ([['a']].flatten ++ ['a']) :=
  c3_amended [] [(0, ['a'])] { dict := [(1, ['a'])], dict_index := 2, output := [['a']] }
    1 ['a'] rfl (by decide) rfl

/-! ## Lemmas for the seed-dict aliasing claim -/

theorem encStep_dict_extends (st : EncSt) (c : Char) :
    ∃ newEntries, (encStep st c).dict = newEntries ++ st.dict := by
  cases hl : assocLookup st.dict (st.pfx ++ [c]) with
  | some j => exact ⟨[], by simp [encStep, hl]⟩
  | none => exact ⟨[(st.pfx ++ [c], st.dict_index)], by simp [encStep, hl]⟩

theorem foldl_encStep_dict_extends (l : List Char) : ∀ st : EncSt,
    ∃ newEntries, (l.foldl encStep st).dict = newEntries ++ st.dict := by
  induction l with
  | nil => intro st; exact ⟨[], rfl⟩
  | cons c l ih =>
      intro st
      obtain ⟨n₁, hn₁⟩ := encStep_dict_extends st c
      obtain ⟨n₂, hn₂⟩ := ih (encStep st c)
      exact ⟨n₂ ++ n₁, by rw [List.foldl_cons, hn₂, hn₁, List.append_assoc]⟩

theorem getD_set_self {α : Type} (l : List α) (i : Nat) (v d : α) (h : i < l.length) :
    (l.set i v).getD i d = v := by
  induction l generalizing i with
  | nil => simp at h
  | cons x xs ih =>
      cases i with
      | zero => rfl
      | succ j => simpa [List.getD] using ih j (by simpa using h)

/-- C9 counterexample: an encoder constructed over the caller's dict object
`{"a": 1}` (heap cell 0) and run on input "b" leaves the caller's object
holding `{"a": 1, "b": 1}` — the parse mutated the caller-provided
`initial_dict` in place, so it does not contain exactly its original
entries afterwards. -/
theorem c9_counterexample :
    run_parse_on_heap [[(['a'], 1)]] 0 ['b'] = [[(['b'], 1), (['a'], 1)]] ∧
    ¬ ((run_parse_on_heap [[(['a'], 1)]] 0 ['b']).getD 0 [] = [(['a'], 1)]) := by
  decide

/-- C9 amended: `__init__` stores the caller's reference without copying,
and the parse registers every new phrase directly through it, so after
`lz78_parse_and_generate_dict` the caller-provided `initial_dict` holds its
original entries plus all newly registered phrases. -/
theorem c9_amended (heap : Heap) (r : Nat) (input : List Char)
    (hr : r < heap.length) :
    ∃ newEntries, (run_parse_on_heap heap r input).getD r [] =
      newEntries ++ heap.getD r [] := by
  obtain ⟨n, hn⟩ := foldl_encStep_dict_extends input
    { dict := heap.getD r [], pfx := [], dict_index := 1, output := [] }
  refine ⟨n, ?_⟩
  rw [run_parse_on_heap, encoder_init_dict_ref, getD_set_self _ _ _ _ hr]
  exact hn

/-- Witness for the amended C9 at the heap `[{"a": 1}]` and input "b". -/
theorem c9_witness :
    (0 : Nat) < ([[(['a'], 1)]] : Heap).length ∧
    ∃ newEntries, (run_parse_on_heap [[(['a'], 1)]] 0 ['b']).getD 0 [] =
      newEntries ++ ([[(['a'], 1)]] : Heap).getD 0 [] :=
  ⟨by decide, c9_amended [[(['a'], 1)]] 0 ['b'] (by decide)⟩

/-- C2 (code-bug evidence): both the parser's and the reconstructor's
`dict_index` counter is initialized to 1 regardless of the seed dictionary.
With the one-entry seed `{"a": 1}` the counter is 1 before any symbol is
consumed (the claim requires 2 = seed size + 1), and parsing "b" registers
the new phrase "b" at index 1 — reusing the index the seed already assigned
to "a". -/
theorem c2_seed_counter_starts_at_one :
    (encRun [(['a'], 1)] []).dict_index = 1 ∧
    (encRun [(['a'], 1)] ['b']).dict_index = 2 ∧
    lz78_parse_and_generate_dict [(['a'], 1)] ['b'] =
      some ([(0, ['b'])], [(['b'], 1), (['a'], 1)]) ∧
    (decRun [(1, ['a'])] []).map DecSt.dict_index = some 1 := by
  decide

/-- C7: the input "EE274 cool cool" parses (empty seed) to exactly the
expected tuple sequence, and reconstructing that tuple sequence yields
exactly the original string. -/
theorem c7_concrete_scenario :
    (lz78_parse_and_generate_dict [] "EE274 cool cool".toList).map Prod.fst =
      some [(0, ['E']), (1, ['2']), (0, ['7']), (0, ['4']), (0, [' ']),
        (0, ['c']), (0, ['o']), (7, ['l']), (5, ['c']), (7, ['o']), (0, ['l'])] ∧
    lz78_decode_from_tuples []
        [(0, ['E']), (1, ['2']), (0, ['7']), (0, ['4']), (0, [' ']),
         (0, ['c']), (0, ['o']), (7, ['l']), (5, ['c']), (7, ['o']), (0, ['l'])] =
      some "EE274 cool cool".toList := by
  constructor <;> rfl

/-- C10: pair-level parsing of the empty block succeeds with an empty tuple
sequence, but `encode_block` on the empty block fails: `encode_literals`
evaluates `literals[-1]` on an empty literal list (an `IndexError`), so the
entropy-coded round trip is unavailable for empty input. -/
theorem c10_empty_block_encode_error :
    lz78_parse_and_generate_dict [] [] = some ([], []) ∧
    encode_literals [] = none ∧
    encode_block [] [] = none := by
  exact ⟨rfl, rfl, rfl⟩

/-! ## Lemmas about the spec-modelled entropy coder -/

theorem natDecode_natCode (n : Nat) (rest : List Bool) :
    natDecode (natCode n ++ rest) = some (n, rest) := by
  induction n with
  | zero => rfl
  | succ k ih =>
      have hc : natCode (k + 1) ++ rest = true :: (natCode k ++ rest) := by
        simp [natCode, List.replicate_succ]
      rw [hc, natDecode, ih]
      rfl

theorem natsDecode_flatten (xs : List Nat) (rest : List Bool) :
    natsDecode xs.length ((xs.map natCode).flatten ++ rest) = some (xs, rest) := by
  induction xs generalizing rest with
  | nil => rfl
  | cons x xs ih =>
      have hc : ((x :: xs).map natCode).flatten ++ rest =
          natCode x ++ ((xs.map natCode).flatten ++ rest) := by
        simp [List.append_assoc]
      rw [List.length_cons, hc, natsDecode, natDecode_natCode]
      simp [ih]

theorem specIntDecode_specIntEncode (xs : List Nat) (rest : List Bool) :
    specIntDecode (specIntEncode xs ++ rest) = some (xs, (specIntEncode xs).length) := by
  rw [specIntDecode, specIntEncode, List.append_assoc, natDecode_natCode]
  simp only [Option.some_bind, natsDecode_flatten, Option.map_some']
  have hlen : (natCode xs.length ++ ((xs.map natCode).flatten ++ rest)).length - rest.length =
      (natCode xs.length ++ (xs.map natCode).flatten).length := by
    simp only [List.length_append]
    omega
  rw [hlen]

theorem ordLits_singletons (cs : List Char) :
    ordLits (cs.map fun c => ([c] : Phrase)) = some (cs.map Char.toNat) := by
  induction cs with
  | nil => rfl
  | cons c cs ih => simp [ordLits, ordLit, ih]

theorem chrLit_toNat (c : Char) : chrLit c.toNat = some [c] := by
  have hv := c.valid
  rw [UInt32.isValidChar, Nat.isValidChar] at hv
  rw [chrLit, if_pos (by exact_mod_cast hv), Char.ofNat_toNat]

theorem chrLits_toNat (cs : List Char) :
    chrLits (cs.map Char.toNat) = some (cs.map fun c => ([c] : Phrase)) := by
  induction cs with
  | nil => rfl
  | cons c cs ih => simp [chrLits, chrLit_toNat, ih]

theorem zip_map_fst_snd_self {α β : Type} (l : List (α × β)) :
    (l.map Prod.fst).zip (l.map Prod.snd) = l := by
  induction l with
  | nil => rfl
  | cons x l ih => simp [ih]

theorem zip_map_fst_snd_concat {α β : Type} (l : List (α × β)) (x : α) (y : β) :
    ((l.map Prod.fst) ++ [x]).zip ((l.map Prod.snd) ++ [y]) = l ++ [(x, y)] := by
  induction l with
  | nil => rfl
  | cons z l ih => simp [ih]

/-- C4: in `decode_block`, equal-length decoded index/literal streams are
zipped directly; an index stream exactly one element longer gets a
synthetic empty-string sentinel literal appended before zipping; any other
length relationship fails the `assert`, and `decode_block` then returns
`none` — no partial decoded output. -/
theorem c4_stream_alignment (indexes : List Nat) (literals : List Phrase) :
    (indexes.length = literals.length →
      align_tuples indexes literals = some (indexes.zip literals)) ∧
    (indexes.length = literals.length + 1 →
      align_tuples indexes literals = some (indexes.zip (literals ++ [[]]))) ∧
    (indexes.length ≠ literals.length → indexes.length ≠ literals.length + 1 →
      align_tuples indexes literals = none ∧
      ∀ (dict0 : DecDict) (bits : List Bool) (n1 n2 : Nat),
        decode_indexes bits = some (indexes, n1) →
        decode_literals (bits.drop n1) = some (literals, n2) →
        decode_block dict0 bits = none) := by
  refine ⟨?_, ?_, ?_⟩
  · intro h
    rw [align_tuples, if_neg (by omega), if_pos h.symm]
  · intro h
    rw [align_tuples, if_pos h.symm]
  · intro h1 h2
    have halign : align_tuples indexes literals = none := by
      rw [align_tuples, if_neg (by omega), if_neg (by omega)]
    refine ⟨halign, ?_⟩
    intro dict0 bits n1 n2 hdi hdl
    rw [decode_block, hdi]
    simp only [Option.some_bind]
    rw [hdl]
    simp [halign]

/-- Witness for C4: the equal-length case, the one-longer case, and a
concrete 6-bit stream whose decoded index stream has two elements while its
literal stream is empty (mismatch of two), which `decode_block` rejects. -/
theorem c4_witness :
    align_tuples [0] [['a']] = some ([0].zip [['a']]) ∧
    align_tuples [0, 1] [['a']] = some ([0, 1].zip ([['a']] ++ [[]])) ∧
    align_tuples [0, 0] [] = none ∧
    decode_block [] [true, true, false, false, false, false] = none :=
  ⟨(c4_stream_alignment [0] [['a']]).1 (by decide),
   (c4_stream_alignment [0, 1] [['a']]).2.1 (by decide),
   ((c4_stream_alignment [0, 0] []).2.2 (by decide) (by decide)).1,
   ((c4_stream_alignment [0, 0] []).2.2 (by decide) (by decide)).2
     [] [true, true, false, false, false, false] 5 1 (by decide) (by decide)⟩

theorem encode_literals_concat (L : List Phrase) (x : Phrase) :
    encode_literals (L ++ [x]) =
      (ordLits (if x = [] then L else L ++ [x])).map specIntEncode := by
  simp only [encode_literals, List.getLast?_concat, List.dropLast_concat]

/-- C8: for tuple sequences of the shape the parser emits (single-character
literals, optionally one trailing sentinel tuple), the encoded block is
exactly the entropy-coded reference stream immediately followed by the
entropy-coded literal stream (sentinel excluded, literals mapped to their
ordinals) with no separate length header, and `decode_block` decodes the
reference stream first — consuming exactly its own bits — and the literal
stream from the remaining bits. -/
theorem c8_stream_separation (dict0 : DecDict) (body : List (Nat × Char))
    (fin : List (Nat × Phrase)) (hfin : fin = [] ∨ ∃ r, fin = [(r, [])])
    (hne : body ≠ [] ∨ fin ≠ []) :
    encode_tuples (bodyTuples body ++ fin) =
      some (encode_indexes ((bodyTuples body ++ fin).map Prod.fst) ++
        specIntEncode (body.map fun p => p.2.toNat)) ∧
    decode_indexes (encode_indexes ((bodyTuples body ++ fin).map Prod.fst) ++
        specIntEncode (body.map fun p => p.2.toNat)) =
      some ((bodyTuples body ++ fin).map Prod.fst,
        (encode_indexes ((bodyTuples body ++ fin).map Prod.fst)).length) ∧
    decode_block dict0 (encode_indexes ((bodyTuples body ++ fin).map Prod.fst) ++
        specIntEncode (body.map fun p => p.2.toNat)) =
      (lz78_decode_from_tuples dict0 (bodyTuples body ++ fin)).map fun out =>
        (out, (encode_indexes ((bodyTuples body ++ fin).map Prod.fst) ++
          specIntEncode (body.map fun p => p.2.toNat)).length) := by
  have hsnd : (bodyTuples body).map Prod.snd =
      (body.map Prod.snd).map fun c => ([c] : Phrase) := by
    simp [bodyTuples, List.map_map]
  have hlitsNat : (body.map fun p => p.2.toNat) = (body.map Prod.snd).map Char.toNat := by
    simp [List.map_map]
  have hLmem : ∀ y ∈ (body.map Prod.snd).map (fun c => ([c] : Phrase)), y ≠ [] := by
    intro y hy
    obtain ⟨c, -, rfl⟩ := List.mem_map.mp hy
    simp
  have hlit : encode_literals ((bodyTuples body ++ fin).map Prod.snd) =
      some (specIntEncode (body.map fun p => p.2.toNat)) := by
    rcases hfin with rfl | ⟨r, rfl⟩
    · have hbne : body ≠ [] := hne.resolve_right (by simp)
      rw [List.append_nil, hsnd]
      have hLne : (body.map Prod.snd).map (fun c => ([c] : Phrase)) ≠ [] := by
        simp [hbne]
      obtain ⟨L', x, hL⟩ := (List.eq_nil_or_concat _).resolve_left hLne
      rw [List.concat_eq_append] at hL
      have hxne : x ≠ [] := hLmem x (by rw [hL]; simp)
      rw [hL, encode_literals_concat, if_neg hxne, ← hL, ordLits_singletons,
        hlitsNat]
      rfl
    · rw [List.map_append, hsnd]
      have : ([(r, [])] : List (Nat × Phrase)).map Prod.snd = [([] : Phrase)] := rfl
      rw [this, encode_literals_concat, if_pos rfl, ordLits_singletons, hlitsNat]
      rfl
  have h2 : decode_indexes (encode_indexes ((bodyTuples body ++ fin).map Prod.fst) ++
      specIntEncode (body.map fun p => p.2.toNat)) =
      some ((bodyTuples body ++ fin).map Prod.fst,
        (encode_indexes ((bodyTuples body ++ fin).map Prod.fst)).length) := by
    simp only [decode_indexes, encode_indexes]
    exact specIntDecode_specIntEncode _ _
  refine ⟨by rw [encode_tuples, hlit]; rfl, h2, ?_⟩
  rw [decode_block, h2]
  simp only [Option.some_bind]
  rw [List.drop_left]
  have hdl : decode_literals (specIntEncode (body.map fun p => p.2.toNat)) =
      some ((body.map Prod.snd).map (fun c => ([c] : Phrase)),
        (specIntEncode (body.map fun p => p.2.toNat)).length) := by
    have h := specIntDecode_specIntEncode (body.map fun p => p.2.toNat) []
    rw [List.append_nil] at h
    rw [decode_literals, h]
    simp only [Option.some_bind]
    rw [hlitsNat, chrLits_toNat]
    rfl
  rw [hdl]
  simp only [Option.some_bind]
  have halign : align_tuples ((bodyTuples body ++ fin).map Prod.fst)
      ((body.map Prod.snd).map fun c => ([c] : Phrase)) =
      some (bodyTuples body ++ fin) := by
    rcases hfin with rfl | ⟨r, rfl⟩
    · rw [List.append_nil, align_tuples, if_neg (by simp [bodyTuples]),
        if_pos (by simp [bodyTuples]), ← hsnd, zip_map_fst_snd_self]
    · have hfst : ((bodyTuples body ++ [(r, [])]).map Prod.fst) =
          (bodyTuples body).map Prod.fst ++ [r] := by simp
      rw [hfst, align_tuples, if_pos (by simp [bodyTuples]), ← hsnd,
        zip_map_fst_snd_concat]
  rw [halign]
  simp only [Option.some_bind]
  cases lz78_decode_from_tuples dict0 (bodyTuples body ++ fin) <;>
    simp [List.length_append]

/-- Witness for C8 at the single tuple `(0, 'a')` with no sentinel. -/
theorem c8_witness :
    encode_tuples (bodyTuples [(0, 'a')] ++ []) =
      some (encode_indexes ((bodyTuples [(0, 'a')] ++ []).map Prod.fst) ++
        specIntEncode ([(0, 'a')].map fun p => p.2.toNat)) ∧
    decode_block [] (encode_indexes ((bodyTuples [(0, 'a')] ++ []).map Prod.fst) ++
        specIntEncode ([(0, 'a')].map fun p => p.2.toNat)) =
      (lz78_decode_from_tuples [] (bodyTuples [(0, 'a')] ++ [])).map fun out =>
        (out, (encode_indexes ((bodyTuples [(0, 'a')] ++ []).map Prod.fst) ++
          specIntEncode ([(0, 'a')].map fun p => p.2.toNat)).length) :=
  ⟨(c8_stream_separation [] [(0, 'a')] [] (Or.inl rfl) (Or.inl (by decide))).1,
   (c8_stream_separation [] [(0, 'a')] [] (Or.inl rfl) (Or.inl (by decide))).2.2⟩
